import Mathlib

/-
  Verification of the GenX auxiliary data-reshaping scripts
  (Example_Systems/ERCOT_Full_Test copy/Auxiliary/data_processing_script.py and
   Example_Systems/ERCOT_Full_Test_Reduced/Auxiliary/test.py).

  The scripts are linear pandas batch jobs over tabular data.  We embed a
  DataFrame as an ordered list of named columns; a cell value is `Option Int`
  where `none` models pandas' NaN (produced by index alignment when a shorter
  column is assigned into a longer frame).  Column assignment `df[c] = series`
  is modelled by `setCol` after aligning the series to the frame's row count,
  which matches pandas' positional index alignment for frames that carry a
  default RangeIndex and have at least one column (every frame in these
  scripts comes from read_csv/read_excel and therefore has a header, so the
  pandas special case of assigning into a completely empty frame never
  arises).
-/

namespace GenX

/-- A cell value; `none` models pandas NaN. -/
abbrev Val := Option Int

/-- A DataFrame: an ordered sequence of named columns. -/
structure Table where
  cols : List (String × List Val)
deriving DecidableEq

namespace Table

/-- Column names, in order (pandas `df.columns`). -/
def names (t : Table) : List String :=
  t.cols.map Prod.fst

/-- Membership test for a column name (pandas `c in df`). -/
def hasCol (t : Table) (c : String) : Bool :=
  t.cols.any (fun p => p.1 == c)

/-- Column lookup by name (pandas `df[c]`; first occurrence). -/
def getCol (t : Table) (c : String) : Option (List Val) :=
  (t.cols.find? (fun p => p.1 == c)).map Prod.snd

/-- Row count: the length of the first column (read frames always have one). -/
def nrows (t : Table) : Nat :=
  match t.cols with
  | [] => 0
  | p :: _ => p.2.length

/-- All columns share the table's row count. -/
def wfb (t : Table) : Bool :=
  t.cols.all (fun p => p.2.length == t.nrows)

end Table

/-- Index alignment of an assigned series to a frame of `n` rows: extra
values are dropped, absent positions become NaN (pandas reindexing of a
RangeIndex series onto a RangeIndex frame). -/
def align (vs : List Val) (n : Nat) : List Val :=
  vs.take n ++ List.replicate (n - vs.length) none

/-- Column assignment `df[c] = vals`: replaces the column when the name is
present, otherwise appends a new column at the right end (pandas). -/
def setCol (t : Table) (c : String) (vals : List Val) : Table :=
  if t.hasCol c then
    ⟨t.cols.map (fun p => if p.1 == c then (p.1, vals) else p)⟩
  else
    ⟨t.cols ++ [(c, vals)]⟩

/-- Option-valued map that stops at the first failure, as an uncaught pandas
exception aborts the batch. -/
def mapOpt (g : α → Option β) : List α → Option (List β)
  | [] => some []
  | a :: l =>
    match g a with
    | none => none
    | some b => (mapOpt g l).map (fun bs => b :: bs)

/-- Column projection `df[names]` (pandas raises KeyError on a missing
label, modelled by `none`). -/
def selectCols (t : Table) (ns : List String) : Option Table :=
  (mapOpt (fun n => (t.getCol n).map (fun v => (n, v))) ns).map Table.mk

/-- The fixed rename lookup table of the column-rename job
(test.py, `columns_to_rename`). -/
def columns_to_rename : List (String × String) :=
  [("TRE_WEST_wind_1", "TRE_WEST_landbasedwind_class1_moderate_1"),
   ("TRE_WEST_wind_2", "TRE_WEST_landbasedwind_class1_moderate_2"),
   ("TRE_WEST_wind_3", "TRE_WEST_landbasedwind_class1_moderate_3"),
   ("TRE_wind_4", "TRE_landbasedwind_class1_moderate_4"),
   ("TRE_wind_5", "TRE_landbasedwind_class1_moderate_5"),
   ("TRE_wind_6", "TRE_landbasedwind_class1_moderate_6"),
   ("TRE_WEST_solar_pv_7", "TRE_WEST_utilitypv_class1_moderate_1"),
   ("TRE_WEST_solar_pv_8", "TRE_WEST_utilitypv_class1_moderate_2"),
   ("TRE_WEST_solar_pv_9", "TRE_WEST_utilitypv_class1_moderate_3"),
   ("TRE_solar_pv_10", "TRE_utilitypv_class1_moderate_4"),
   ("TRE_solar_pv_11", "TRE_utilitypv_class1_moderate_5")]

/-- Rename one column label through the mapping; labels that are not keys
of the mapping pass through unchanged. -/
def applyRen (m : List (String × String)) (s : String) : String :=
  match m.lookup s with
  | some v => v
  | none => s

/-- The rename job on one frame: `df.rename(columns=mapping)` renames every
matching column label and ignores mapping keys absent from the frame. -/
def renameTable (m : List (String × String)) (t : Table) : Table :=
  ⟨t.cols.map (fun p => (applyRen m p.1, p.2))⟩

/-- Console output of the aggregator job, one constructor per print site of
data_processing_script.py lines 18-49. -/
inductive Log where
  | readError (file : String)
  | skip (file : String) (sheet : String)
  | wrote (file : String)
  | complete
deriving DecidableEq

/-- Series sum (pandas `df[c].sum()`), skipping NaN; an absent column never
reaches this point in the aggregator because membership is checked first. -/
def colSum (t : Table) (c : String) : Int :=
  (((t.getCol c).getD []).filterMap id).sum

/-- One output row of the aggregator: the per-column sums (`sum_data`)
together with the trailing `Sheet` label. -/
abbrev AggRow := List (String × Int) × String

/-- The `sum_data` dict for one sheet plus its sheet label. -/
def mkAggRow (cols : List String) (sheet : String) (t : Table) : AggRow :=
  (cols.map (fun c => (c, colSum t c)), sheet)

/-- The inner loop of the aggregator (lines 31-40): sheets missing any
target column are skipped with a notice, every other sheet contributes one
summed row. -/
def aggSheets (cols : List String) (file : String) :
    List (String × Table) → List AggRow × List Log
  | [] => ([], [])
  | (nm, df) :: rest =>
    let r := aggSheets cols file rest
    if cols.all (fun c => df.hasCol c) then
      (mkAggRow cols nm df :: r.1, r.2)
    else
      (r.1, Log.skip file nm :: r.2)

/-- Python `str.endswith`, as a structural test on the character data. -/
def endsWithD (s suffix : String) : Bool :=
  suffix.data.isSuffixOf s.data

/-- The aggregator batch (lines 15-49) over a directory listing.  Each entry
pairs a file name with `none` when the spreadsheet fails to parse (the
caught exception of lines 23-27) or with its sheets.  Returns the written
per-file outputs and the console log, ending in the completion message. -/
def runSumJob (cols : List String) :
    List (String × Option (List (String × Table))) →
    List (String × List AggRow) × List Log
  | [] => ([], [Log.complete])
  | (fname, r) :: rest =>
    if endsWithD fname ".xlsx" || endsWithD fname ".xls" then
      match r with
      | none =>
        let recur := runSumJob cols rest
        (recur.1, Log.readError fname :: recur.2)
      | some sheets =>
        let s := aggSheets cols fname sheets
        let recur := runSumJob cols rest
        ((fname, s.1) :: recur.1, s.2 ++ Log.wrote fname :: recur.2)
    else
      runSumJob cols rest

/-- Row-wise sum with NaN skipped (pandas `df[cols].sum(axis=1)` over `n`
rows of the projected sub-frame). -/
def sumAxis1 (t : Table) (n : Nat) : List Val :=
  (List.range n).map
    (fun i => some ((t.cols.filterMap (fun p => p.2.getD i none)).sum))

/-- One step of the concatenation job (lines 67-76):
`df[cols].sum(axis=1)` assigned to `df[Total]`; a listed column absent from
the frame raises KeyError, modelled by `none`. -/
def addTotal (t : Table) (cols : List String) : Option Table :=
  (selectCols t cols).map (fun sub => setCol t "Total" (sumAxis1 sub t.nrows))

/-- Column union in order of first appearance, the column layout of
`pd.concat` with its default `sort=False`. -/
def namesUnion (ts : List Table) : List String :=
  (ts.flatMap Table.names).dedup

/-- Row-wise stacking of frames: each frame contributes its column's values,
or NaN for a column it lacks. -/
def stackTables (ts : List Table) : Table :=
  ⟨(namesUnion ts).map
    (fun n =>
      (n, ts.flatMap
        (fun t => (t.getCol n).getD (List.replicate t.nrows none))))⟩

/-- pandas `pd.concat`: raises ValueError on an empty list of objects,
otherwise stacks the frames row-wise. -/
def pdConcat : List Table → Option Table
  | [] => none
  | ts => some (stackTables ts)

/-- The concatenation job (data_processing_script.py lines 55-82): gather
every sheet of every .xlsx file, add the Total column to each, and
concatenate all results into one output frame. -/
def runConcatJob (cols : List String)
    (files : List (String × List (String × Table))) : Option Table :=
  (mapOpt (fun sh => addTotal sh.2 cols)
    ((files.filter (fun f => endsWithD f.1 ".xlsx")).flatMap Prod.snd)).bind
    pdConcat

/-- The column labels `source_df.columns[start_col:end_col+1]` of the
column-range copier (test.py lines 29-38); Python slice bounds clamp. -/
def sliceNames (src : Table) (startCol endCol : Nat) : List String :=
  (src.names.drop startCol).take (endCol + 1 - startCol)

/-- pandas `df.insert(0, c, vals)`: prepends the column, raising ValueError
(modelled by `none`) when the label already exists. -/
def insertAt0 (t : Table) (c : String) (vals : List Val) : Option Table :=
  if t.hasCol c then none
  else some ⟨(c, align vals t.nrows) :: t.cols⟩

/-- The copier's inner loop (lines 52-53): insert each selected source
column at position 0 of the target, in list order. -/
def insertAll (src : Table) : List String → Table → Option Table
  | [], t => some t
  | n :: rest, t =>
    match src.getCol n with
    | none => none
    | some v =>
      match insertAt0 t n v with
      | none => none
      | some t2 => insertAll src rest t2

/-- The column-range copy applied to one target frame (lines 44-56). -/
def copyRange (src : Table) (startCol endCol : Nat) (target : Table) :
    Option Table :=
  insertAll src (sliceNames src startCol endCol) target

/-- The missing-column loop of the reconciliation (test.py lines 80-82):
assign each listed reference column into the accumulating target frame. -/
def addMissing (ref : Table) : List String → Table → Option Table
  | [], acc => some acc
  | n :: rest, acc =>
    match ref.getCol n with
    | none => none
    | some v => addMissing ref rest (setCol acc n (align v acc.nrows))

/-- The reconciliation of one target frame against the reference (test.py
lines 72-88): assign every reference column absent from the target (Python
iterates the set difference in unspecified order; we iterate in reference
order, which the final reordering makes immaterial), then project onto the
reference's column sequence. -/
def reconcile (ref target : Table) : Option Table :=
  (addMissing ref (ref.names.filter (fun n => ! target.hasCol n)) target).bind
    (fun extended => selectCols extended ref.names)

/-- The fixed replace list of the column-replacer job
(test.py, `columns_to_replace`). -/
def columns_to_replace : List String :=
  ["TRE_WEST_landbasedwind_class1_moderate_1",
   "TRE_WEST_landbasedwind_class1_moderate_2",
   "TRE_WEST_landbasedwind_class1_moderate_3",
   "TRE_landbasedwind_class1_moderate_4",
   "TRE_landbasedwind_class1_moderate_5",
   "TRE_landbasedwind_class1_moderate_6",
   "TRE_WEST_utilitypv_class1_moderate_1",
   "TRE_WEST_utilitypv_class1_moderate_2",
   "TRE_WEST_utilitypv_class1_moderate_3",
   "TRE_utilitypv_class1_moderate_4",
   "TRE_utilitypv_class1_moderate_5"]

/-- The replacer's inner loop (test.py lines 133-134): `df1[c] = df2[c]`
for each listed column.  A column absent from df2 raises KeyError (`none`);
assignment into df1 aligns df2's column to df1's row count and creates the
column when df1 lacks it. -/
def replaceCols (df1 df2 : Table) : List String → Option Table
  | [] => some df1
  | c :: rest =>
    match df2.getCol c with
    | none => none
    | some v => replaceCols (setCol df1 c (align v df1.nrows)) df2 rest

/-- One filename pair of the replacer (lines 123-137): reading the
folder-2 file fails (FileNotFoundError) when the name is absent there. -/
def processPair (cols : List String) (folder2 : List (String × Table))
    (name : String) (df1 : Table) : Option Table :=
  match folder2.lookup name with
  | none => none
  | some df2 => replaceCols df1 df2 cols

/-- The replacer batch over the .csv files of folder 1; any uncaught pandas
error aborts the whole job. -/
def runReplaceJob (cols : List String)
    (folder1 folder2 : List (String × Table)) :
    Option (List (String × Table)) :=
  mapOpt
    (fun p => (processPair cols folder2 p.1 p.2).map (fun t => (p.1, t)))
    (folder1.filter (fun p => endsWithD p.1 ".csv"))

theorem hasCol_eq_true_iff (t : Table) (c : String) :
    t.hasCol c = true ↔ c ∈ t.names := by
  simp [Table.hasCol, Table.names, List.any_eq_true, List.mem_map, beq_iff_eq]

theorem getCol_eq_some_of_hasCol (t : Table) (c : String)
    (h : t.hasCol c = true) : ∃ v, t.getCol c = some v := by
  have hany : t.cols.any (fun p => p.1 == c) = true := h
  obtain ⟨pr, hmem, hpr⟩ := List.any_eq_true.mp hany
  have hf : (t.cols.find? (fun p => p.1 == c)).isSome :=
    List.find?_isSome.mpr ⟨pr, hmem, hpr⟩
  obtain ⟨q, hq⟩ := Option.isSome_iff_exists.mp hf
  exact ⟨q.2, by simp [Table.getCol, hq]⟩

theorem hasCol_of_getCol_eq_some (t : Table) (c : String) (v : List Val)
    (h : t.getCol c = some v) : t.hasCol c = true := by
  obtain ⟨pr, hpr, -⟩ := Option.map_eq_some'.mp h
  have hp := List.find?_some hpr
  exact List.any_eq_true.mpr ⟨pr, List.mem_of_find?_eq_some hpr, hp⟩

theorem getCol_length_of_wf (t : Table) (c : String) (v : List Val)
    (hwf : t.wfb = true) (h : t.getCol c = some v) : v.length = t.nrows := by
  obtain ⟨pr, hpr, hv⟩ := Option.map_eq_some'.mp h
  have hmem := List.mem_of_find?_eq_some hpr
  have := List.all_eq_true.mp hwf pr hmem
  simpa [hv] using this

theorem align_length (vs : List Val) (n : Nat) : (align vs n).length = n := by
  simp [align]
  omega

theorem find?_congr' {α : Type} (p q : α → Bool) :
    ∀ l : List α, (∀ a ∈ l, p a = q a) → l.find? p = l.find? q := by
  intro l
  induction l with
  | nil => intro _; rfl
  | cons a l ih =>
    intro h
    have ha := h a (List.mem_cons_self a l)
    cases hq : q a with
    | true =>
      rw [List.find?_cons_of_pos _ (by simp [ha, hq]),
        List.find?_cons_of_pos _ (by simp [hq])]
    | false =>
      rw [List.find?_cons_of_neg _ (by simp [ha, hq]),
        List.find?_cons_of_neg _ (by simp [hq])]
      exact ih (fun x hx => h x (List.mem_cons_of_mem a hx))

theorem setCol_cols_of_not_hasCol (t : Table) (c : String) (vals : List Val)
    (h : t.hasCol c = false) :
    (setCol t c vals).cols = t.cols ++ [(c, vals)] := by
  simp [setCol, h]

theorem setCol_names_of_hasCol (t : Table) (c : String) (vals : List Val)
    (h : t.hasCol c = true) : (setCol t c vals).names = t.names := by
  simp only [setCol, h, if_true, Table.names, List.map_map]
  exact List.map_congr_left
    (fun p _ => by by_cases hb : p.1 = c <;> simp [hb])

theorem hasCol_eq_of_names_eq {t u : Table} (h : u.names = t.names)
    (c : String) : u.hasCol c = t.hasCol c := by
  cases hb : t.hasCol c with
  | true =>
    have := (hasCol_eq_true_iff t c).mp hb
    exact (hasCol_eq_true_iff u c).mpr (h ▸ this)
  | false =>
    cases ha : u.hasCol c with
    | false => rfl
    | true =>
      have hmem := (hasCol_eq_true_iff u c).mp ha
      rw [h] at hmem
      have := (hasCol_eq_true_iff t c).mpr hmem
      rw [this] at hb
      exact hb

theorem setCol_hasCol_self (t : Table) (c : String) (vals : List Val) :
    (setCol t c vals).hasCol c = true := by
  by_cases h : t.hasCol c = true
  · rw [hasCol_eq_true_iff, setCol_names_of_hasCol t c vals h,
      ← hasCol_eq_true_iff]
    exact h
  · have h' : t.hasCol c = false := by simpa using h
    have hcols := setCol_cols_of_not_hasCol t c vals h'
    rw [hasCol_eq_true_iff]
    simp [Table.names, hcols]

theorem setCol_hasCol_of_ne (t : Table) (c c' : String) (vals : List Val)
    (h : c' ≠ c) : (setCol t c vals).hasCol c' = t.hasCol c' := by
  by_cases hc : t.hasCol c = true
  · exact hasCol_eq_of_names_eq (setCol_names_of_hasCol t c vals hc) c'
  · have hc' : t.hasCol c = false := by simpa using hc
    have hcols := setCol_cols_of_not_hasCol t c vals hc'
    have hcc : (c == c') = false := beq_eq_false_iff_ne.mpr (Ne.symm h)
    simp [Table.hasCol, hcols, hcc]

theorem setCol_getCol_self (t : Table) (c : String) (vals : List Val) :
    (setCol t c vals).getCol c = some vals := by
  by_cases hc : t.hasCol c = true
  · have hany : t.cols.any (fun p => p.1 == c) = true := hc
    obtain ⟨pr, hmem, hpr⟩ := List.any_eq_true.mp hany
    have hf : (t.cols.find? (fun p => p.1 == c)).isSome :=
      List.find?_isSome.mpr ⟨pr, hmem, hpr⟩
    obtain ⟨q, hq⟩ := Option.isSome_iff_exists.mp hf
    have hqc := List.find?_some hq
    simp only [Table.getCol, setCol, hc, if_true]
    rw [List.find?_map]
    rw [find?_congr'
      ((fun p : String × List Val => p.1 == c) ∘
        fun p => if p.1 == c then (p.1, vals) else p)
      (fun p => p.1 == c) t.cols
      (fun p _ => by by_cases hb : p.1 = c <;> simp [hb])]
    rw [hq]
    have hqc' : q.1 = c := eq_of_beq hqc
    simp [hqc']
  · have hc' : t.hasCol c = false := by simpa using hc
    have hnone : t.cols.find? (fun p => p.1 == c) = none := by
      rw [List.find?_eq_none]
      intro p hp hcon
      have htrue : t.cols.any (fun q => q.1 == c) = true :=
        List.any_eq_true.mpr ⟨p, hp, hcon⟩
      have hfalse : t.cols.any (fun q => q.1 == c) = false := hc'
      rw [htrue] at hfalse
      exact Bool.noConfusion hfalse
    simp [Table.getCol, setCol, hc', List.find?_append, hnone]

theorem setCol_getCol_of_ne (t : Table) (c c' : String) (vals : List Val)
    (h : c' ≠ c) : (setCol t c vals).getCol c' = t.getCol c' := by
  by_cases hc : t.hasCol c = true
  · simp only [Table.getCol, setCol, hc, if_true]
    rw [List.find?_map]
    rw [find?_congr'
      ((fun p : String × List Val => p.1 == c') ∘
        fun p => if p.1 == c then (p.1, vals) else p)
      (fun p => p.1 == c') t.cols
      (fun p _ => by by_cases hb : p.1 = c <;> simp [hb])]
    cases hfind : t.cols.find? (fun p => p.1 == c') with
    | none => simp
    | some pr =>
      have hfst := List.find?_some hfind
      have hne : pr.1 ≠ c := by
        rw [eq_of_beq hfst]
        exact h
      simp [hne]
  · have hc' : t.hasCol c = false := by simpa using hc
    have hcc : (c == c') = false := beq_eq_false_iff_ne.mpr (Ne.symm h)
    simp [Table.getCol, setCol, hc', List.find?_append, hcc]

theorem nrows_nil {t : Table} (h : t.cols = []) : t.nrows = 0 := by
  simp [Table.nrows, h]

theorem nrows_cons {t : Table} {p : String × List Val}
    {l : List (String × List Val)} (h : t.cols = p :: l) :
    t.nrows = p.2.length := by
  simp [Table.nrows, h]

theorem setCol_nrows_of_length (t : Table) (c : String) (vals : List Val)
    (hlen : vals.length = t.nrows) : (setCol t c vals).nrows = t.nrows := by
  by_cases hcb : t.hasCol c = true
  · have hcols : (setCol t c vals).cols
        = t.cols.map (fun p => if p.1 == c then (p.1, vals) else p) := by
      simp [setCol, hcb]
    cases hcolsT : t.cols with
    | nil => simp [Table.hasCol, hcolsT] at hcb
    | cons p rest =>
      by_cases hb : p.1 = c
      · have htail : (setCol t c vals).cols
            = (p.1, vals) :: rest.map (fun q => if q.1 == c then (q.1, vals) else q) := by
          rw [hcols, hcolsT]
          simp [hb]
        rw [nrows_cons htail]
        exact hlen
      · have htail : (setCol t c vals).cols
            = p :: rest.map (fun q => if q.1 == c then (q.1, vals) else q) := by
          rw [hcols, hcolsT]
          simp [hb]
        rw [nrows_cons htail, nrows_cons hcolsT]
  · have hcb' : t.hasCol c = false := by simpa using hcb
    have hcols := setCol_cols_of_not_hasCol t c vals hcb'
    cases hcolsT : t.cols with
    | nil =>
      have htail : (setCol t c vals).cols = [(c, vals)] := by
        rw [hcols, hcolsT]
        rfl
      rw [nrows_cons htail]
      exact hlen
    | cons p rest =>
      have htail : (setCol t c vals).cols = p :: (rest ++ [(c, vals)]) := by
        rw [hcols, hcolsT]
        rfl
      rw [nrows_cons htail, nrows_cons hcolsT]

theorem setCol_nrows_align (t : Table) (c : String) (v : List Val) :
    (setCol t c (align v t.nrows)).nrows = t.nrows :=
  setCol_nrows_of_length t c (align v t.nrows) (align_length v t.nrows)

theorem lookup_mem :
    ∀ {m : List (String × String)} {s v : String},
      m.lookup s = some v → (s, v) ∈ m := by
  intro m
  induction m with
  | nil => intro s v h; simp [List.lookup] at h
  | cons kv rest ih =>
    intro s v h
    obtain ⟨k, w⟩ := kv
    cases hk : (s == k) with
    | false =>
      simp [List.lookup, hk] at h
      exact List.mem_cons_of_mem _ (ih h)
    | true =>
      simp [List.lookup, hk] at h
      rw [eq_of_beq hk, ← h]
      exact List.mem_cons_self _ _

theorem applyRen_applyRen (m : List (String × String))
    (hm : ∀ p ∈ m, m.lookup p.2 = none) (s : String) :
    applyRen m (applyRen m s) = applyRen m s := by
  cases h : m.lookup s with
  | none => simp [applyRen, h]
  | some v =>
    have hv := hm (s, v) (lookup_mem h)
    simp [applyRen, h, hv]

/-- C7: applying the fixed rename mapping of test.py twice yields the same
table as applying it once, and a table containing none of the mapping's old
names is left unchanged (absent names are ignored without error). -/
theorem rename_job_idempotent :
    (∀ t : Table,
      renameTable columns_to_rename (renameTable columns_to_rename t)
        = renameTable columns_to_rename t)
    ∧ ∀ t : Table, (∀ p ∈ columns_to_rename, t.hasCol p.1 = false) →
        renameTable columns_to_rename t = t := by
  constructor
  · intro t
    have hm : ∀ p ∈ columns_to_rename, columns_to_rename.lookup p.2 = none := by
      decide
    simp only [renameTable, List.map_map]
    exact congrArg Table.mk (List.map_congr_left (fun p _ => by
      simp [Function.comp, applyRen_applyRen columns_to_rename hm p.1]))
  · intro t ht
    have hnone : ∀ p ∈ t.cols, columns_to_rename.lookup p.1 = none := by
      intro p hp
      cases h : columns_to_rename.lookup p.1 with
      | none => rfl
      | some v =>
        have hmem := lookup_mem h
        have hfalse := ht (p.1, v) hmem
        have htrue : t.hasCol p.1 = true :=
          List.any_eq_true.mpr ⟨p, hp, by simp⟩
        rw [htrue] at hfalse
        exact Bool.noConfusion hfalse
    have hmap : t.cols.map (fun p => (applyRen columns_to_rename p.1, p.2))
        = t.cols.map id :=
      List.map_congr_left (fun p hp => by simp [applyRen, hnone p hp])
    simp only [renameTable]
    rw [hmap, List.map_id]

/-- Example frame containing one old wind name, for the rename witness. -/
def renameExample : Table :=
  ⟨[("Time_Index", [some 1]), ("TRE_WEST_wind_1", [some 5])]⟩

/-- Example frame containing none of the rename mapping's old names. -/
def renameExampleNoKeys : Table :=
  ⟨[("Time_Index", [some 1]), ("COAST", [some 2])]⟩

theorem rename_job_idempotent_witness :
    renameTable columns_to_rename (renameTable columns_to_rename renameExample)
        = renameTable columns_to_rename renameExample
    ∧ renameTable columns_to_rename renameExampleNoKeys = renameExampleNoKeys :=
  ⟨rename_job_idempotent.1 renameExample,
   rename_job_idempotent.2 renameExampleNoKeys (by decide)⟩

/-- The sheet of the concrete aggregator scenario. -/
def sheetS1 : Table :=
  ⟨[("FAR_WEST", [some 1, some 2]), ("NORTH", [some 3, some 4]),
    ("WEST", [some 5, some 6])]⟩

/-- C8: on a file with one sheet S1 with FAR_WEST=[1,2], NORTH=[3,4],
WEST=[5,6], the aggregator writes exactly one row FAR_WEST=3, NORTH=7,
WEST=11, Sheet=S1. -/
theorem aggregator_concrete_scenario :
    runSumJob ["FAR_WEST", "NORTH", "WEST"]
        [("load.xlsx", some [("S1", sheetS1)])]
      = ([("load.xlsx",
            [([("FAR_WEST", 3), ("NORTH", 7), ("WEST", 11)], "S1")])],
         [Log.wrote "load.xlsx", Log.complete]) := by
  rfl

/-- C4 counterexample: on an empty input directory the concatenation job of
data_processing_script.py reaches pd.concat with an empty results list,
which raises ValueError instead of writing output.csv. -/
theorem concat_job_empty_dir_raises :
    runConcatJob ["Column1", "Column2"] [] = none := rfl

/-- C4 amended: on an empty input directory the aggregator job terminates
normally with zero outputs and its completion message, but the
concatenation job errors (pd.concat of an empty list). -/
theorem empty_dir_jobs :
    ∀ cols cols2 : List String,
      runSumJob cols [] = ([], [Log.complete])
        ∧ runConcatJob cols2 [] = none :=
  fun _ _ => ⟨rfl, rfl⟩

/-- C9: a sheet that has every target column but zero rows is not skipped
and contributes a row whose sum is zero for each target column. -/
theorem zero_row_sheet_sums_to_zero :
    ∀ (cols : List String) (file sheet : String) (t : Table),
      (∀ c ∈ cols, t.getCol c = some []) →
      aggSheets cols file [(sheet, t)]
        = ([(cols.map (fun c => (c, 0)), sheet)], []) := by
  intro cols file sheet t h
  have hall : cols.all (fun c => t.hasCol c) = true :=
    List.all_eq_true.mpr (fun c hc => hasCol_of_getCol_eq_some t c [] (h c hc))
  simp [aggSheets, hall, mkAggRow]
  intro c hc
  simp [colSum, h c hc]

/-- A sheet with the three target columns and no rows. -/
def zeroRowSheet : Table :=
  ⟨[("FAR_WEST", []), ("NORTH", []), ("WEST", [])]⟩

theorem zero_row_sheet_sums_to_zero_witness :
    aggSheets ["FAR_WEST", "NORTH", "WEST"] "load.xlsx"
        [("S1", zeroRowSheet)]
      = ([([("FAR_WEST", 0), ("NORTH", 0), ("WEST", 0)], "S1")], []) :=
  zero_row_sheet_sums_to_zero _ _ _ _ (by decide)

theorem selectCols_success (t : Table) :
    ∀ ns : List String, (∀ n ∈ ns, t.hasCol n = true) →
      selectCols t ns = some ⟨ns.map (fun n => (n, (t.getCol n).getD []))⟩ := by
  intro ns
  induction ns with
  | nil => intro _; rfl
  | cons n rest ih =>
    intro h
    obtain ⟨v, hv⟩ := getCol_eq_some_of_hasCol t n (h n (List.mem_cons_self n rest))
    have hrest := ih (fun x hx => h x (List.mem_cons_of_mem n hx))
    have hrest' : mapOpt (fun n => (t.getCol n).map (fun v => (n, v))) rest
        = some (rest.map (fun n => (n, (t.getCol n).getD []))) := by
      have := hrest
      simp only [selectCols, Option.map_eq_some'] at this
      obtain ⟨l, hl, hmk⟩ := this
      rw [hl]
      have : l = rest.map (fun n => (n, (t.getCol n).getD [])) := by
        have := congrArg Table.cols hmk
        simpa using this
      rw [this]
    simp [selectCols, mapOpt, hv, hrest']

theorem selectCols_names (t : Table) (ns : List String)
    (h : ∀ n ∈ ns, t.hasCol n = true) :
    ∃ out, selectCols t ns = some out ∧ out.names = ns := by
  refine ⟨_, selectCols_success t ns h, ?_⟩
  simp only [Table.names, List.map_map]
  rw [show (Prod.fst ∘ fun n : String => (n, (t.getCol n).getD [])) = id from
    rfl, List.map_id]

theorem addMissing_success (ref : Table) :
    ∀ (l : List String) (acc : Table), (∀ n ∈ l, ref.hasCol n = true) →
      ∃ ext, addMissing ref l acc = some ext
        ∧ ∀ n, (acc.hasCol n = true ∨ n ∈ l) → ext.hasCol n = true := by
  intro l
  induction l with
  | nil =>
    intro acc _
    refine ⟨acc, rfl, fun n h => ?_⟩
    rcases h with h | h
    · exact h
    · simp at h
  | cons m rest ih =>
    intro acc h
    obtain ⟨v, hv⟩ := getCol_eq_some_of_hasCol ref m (h m (List.mem_cons_self m rest))
    obtain ⟨ext, hext, hprop⟩ :=
      ih (setCol acc m (align v acc.nrows)) (fun x hx => h x (List.mem_cons_of_mem m hx))
    refine ⟨ext, by simp [addMissing, hv, hext], fun n hn => ?_⟩
    rcases hn with hn | hn
    · by_cases hnm : n = m
      · subst hnm
        exact hprop n (Or.inl (setCol_hasCol_self acc n (align v acc.nrows)))
      · refine hprop n (Or.inl ?_)
        rw [setCol_hasCol_of_ne acc m n (align v acc.nrows) hnm]
        exact hn
    · rcases List.mem_cons.mp hn with hn | hn
      · subst hn
        exact hprop n (Or.inl (setCol_hasCol_self acc n (align v acc.nrows)))
      · exact hprop n (Or.inr hn)

/-- C1: for every reference frame and every target frame, the
reconciliation job succeeds and the persisted target's column names equal
the reference's column names, in the reference's exact order (the target is
extended with the reference's absent columns and then projected onto the
reference's column sequence). -/
theorem reconcile_matches_reference :
    ∀ ref target : Table,
      ∃ out, reconcile ref target = some out ∧ out.names = ref.names := by
  intro ref target
  have hfilter : ∀ n ∈ ref.names.filter (fun n => ! target.hasCol n),
      ref.hasCol n = true := by
    intro n hn
    exact (hasCol_eq_true_iff ref n).mpr (List.mem_of_mem_filter hn)
  obtain ⟨ext, hext, hprop⟩ := addMissing_success ref _ target hfilter
  have hall : ∀ n ∈ ref.names, ext.hasCol n = true := by
    intro n hn
    by_cases ht : target.hasCol n = true
    · exact hprop n (Or.inl ht)
    · have ht' : target.hasCol n = false := by simpa using ht
      refine hprop n (Or.inr (List.mem_filter.mpr ⟨hn, by simp [ht']⟩))
  obtain ⟨out, hout, hnames⟩ := selectCols_names ext ref.names hall
  exact ⟨out, by simp [reconcile, hext, hout], hnames⟩

theorem insertAll_names (src : Table) :
    ∀ (l : List String) (t : Table),
      l.Nodup → (∀ n ∈ l, n ∈ src.names) →
      (∀ n ∈ l, t.hasCol n = false) →
      ∃ out, insertAll src l t = some out
        ∧ out.names = l.reverse ++ t.names := by
  intro l
  induction l with
  | nil => intro t _ _ _; exact ⟨t, rfl, by simp⟩
  | cons n rest ih =>
    intro t hnd hsrc hfree
    obtain ⟨v, hv⟩ := getCol_eq_some_of_hasCol src n
      ((hasCol_eq_true_iff src n).mpr (hsrc n (List.mem_cons_self n rest)))
    have hfn : t.hasCol n = false := hfree n (List.mem_cons_self n rest)
    have hins : insertAt0 t n v = some ⟨(n, align v t.nrows) :: t.cols⟩ := by
      simp [insertAt0, hfn]
    have hnd' := List.nodup_cons.mp hnd
    have hfree' : ∀ m ∈ rest,
        (Table.mk ((n, align v t.nrows) :: t.cols)).hasCol m = false := by
      intro m hm
      have hmn : (n == m) = false :=
        beq_eq_false_iff_ne.mpr (fun e => hnd'.1 (e ▸ hm))
      simp [Table.hasCol, hmn]
      have := hfree m (List.mem_cons_of_mem n hm)
      simpa [Table.hasCol] using this
    obtain ⟨out, hout, hnames⟩ := ih ⟨(n, align v t.nrows) :: t.cols⟩
      hnd'.2 (fun m hm => hsrc m (List.mem_cons_of_mem n hm)) hfree'
    refine ⟨out, by simp [insertAll, hv, hins, hout], ?_⟩
    rw [hnames]
    simp [Table.names]

/-- C2 amended: provided the selected slice's labels are distinct and none
already occurs in the target (pandas `insert` raises otherwise), the copier
succeeds and places the slice's columns at the front of the target in
REVERSED source order, followed by the target's original columns. -/
theorem copy_range_inserts_reversed :
    ∀ (src : Table) (a b : Nat) (target : Table),
      (sliceNames src a b).Nodup →
      (∀ n ∈ sliceNames src a b, target.hasCol n = false) →
      ∃ out, copyRange src a b target = some out
        ∧ out.names = (sliceNames src a b).reverse ++ target.names := by
  intro src a b target hnd hfree
  have hsrc : ∀ n ∈ sliceNames src a b, n ∈ src.names := by
    intro n hn
    simp only [sliceNames] at hn
    exact List.mem_of_mem_drop (List.mem_of_mem_take hn)
  exact insertAll_names src (sliceNames src a b) target hnd hsrc hfree

/-- Source frame for the copier scenario. -/
def copySource : Table := ⟨[("a", [some 1]), ("b", [some 2])]⟩

/-- Target frame for the copier scenario. -/
def copyTarget : Table := ⟨[("t", [some 5])]⟩

theorem copy_range_inserts_reversed_witness :
    ∃ out, copyRange copySource 0 1 copyTarget = some out
      ∧ out.names = (sliceNames copySource 0 1).reverse ++ copyTarget.names :=
  copy_range_inserts_reversed copySource 0 1 copyTarget (by decide) (by decide)

/-- C2 counterexample: with source columns a, b (slice positions 0 through
1) and a target whose single column is t, the copier produces the column
order b, a, t — the slice appears at the front REVERSED, refuting the
claimed source order a, b, t. -/
theorem copy_range_order_counterexample :
    (copyRange copySource 0 1 copyTarget).map Table.names
        = some ["b", "a", "t"]
    ∧ (["b", "a", "t"] : List String) ≠ ["a", "b", "t"] := by
  exact ⟨by decide, by decide⟩

theorem table_eq_mk {t : Table} {l : List (String × List Val)}
    (h : t.cols = l) : t = ⟨l⟩ := by
  cases t
  simpa using h

/-- The integer value of column `c` at row `i` (0 for NaN or out of range);
under the no-NaN and well-formedness hypotheses below it is exactly the
cell value. -/
def valInt (t : Table) (c : String) (i : Nat) : Int :=
  ((((t.getCol c).getD []).getD i none)).getD 0

theorem filterMap_eq_map_getD {α β : Type} (g : α → Option β) (d : β) :
    ∀ l : List α, (∀ x ∈ l, (g x).isSome = true) →
      l.filterMap g = l.map (fun x => (g x).getD d) := by
  intro l
  induction l with
  | nil => intro _; rfl
  | cons a l ih =>
    intro h
    obtain ⟨b, hb⟩ := Option.isSome_iff_exists.mp (h a (List.mem_cons_self a l))
    rw [List.filterMap_cons, hb]
    simp [ih (fun x hx => h x (List.mem_cons_of_mem a hx)), hb]

/-- C5 amended: for a well-formed frame containing every listed column,
none of whose listed cells is NaN, and not already containing a Total
column, the concatenation job's per-sheet step appends a new Total column
whose value in each row is the sum of the listed columns' values in that
row, leaving every pre-existing column unchanged.  (A pre-existing Total
column would instead be overwritten — see the counterexample.) -/
theorem row_sum_total_correct :
    ∀ (t : Table) (cl : List String),
      cl.all (fun c => t.hasCol c) = true →
      t.hasCol "Total" = false →
      t.wfb = true →
      cl.all (fun c => ((t.getCol c).getD []).all (fun x => x.isSome)) = true →
      ∃ tot : List Val,
        addTotal t cl = some ⟨t.cols ++ [("Total", tot)]⟩
          ∧ tot.length = t.nrows
          ∧ ∀ i, i < t.nrows →
              tot.getD i none = some ((cl.map (fun c => valInt t c i)).sum) := by
  intro t cl hcols hTot hwf hnan
  have hsel := selectCols_success t cl (fun c hc => List.all_eq_true.mp hcols c hc)
  refine ⟨sumAxis1 ⟨cl.map (fun c => (c, (t.getCol c).getD []))⟩ t.nrows,
    ?_, ?_, ?_⟩
  · rw [addTotal, hsel]
    simp only [Option.map_some']
    exact congrArg some (table_eq_mk (setCol_cols_of_not_hasCol t "Total" _ hTot))
  · simp [sumAxis1]
  · intro i hi
    have hget : (sumAxis1 ⟨cl.map (fun c => (c, (t.getCol c).getD []))⟩
          t.nrows).getD i none
        = some (((cl.map (fun c => (c, (t.getCol c).getD []))).filterMap
            (fun p => p.2.getD i none)).sum) := by
      rw [sumAxis1, List.getD_eq_getElem?_getD, List.getElem?_map,
        List.getElem?_range hi]
      rfl
    rw [hget, List.filterMap_map]
    have hsome : ∀ c ∈ cl,
        (((fun p : String × List Val => p.2.getD i none) ∘
          fun c => (c, (t.getCol c).getD [])) c).isSome = true := by
      intro c hc
      obtain ⟨v, hv⟩ := getCol_eq_some_of_hasCol t c
        (List.all_eq_true.mp hcols c hc)
      have hlen := getCol_length_of_wf t c v hwf hv
      have hnanc := List.all_eq_true.mp hnan c hc
      rw [hv] at hnanc
      simp only [Option.getD_some] at hnanc
      have hiv : i < v.length := by omega
      simp only [Function.comp_apply, hv, Option.getD_some]
      rw [List.getD_eq_getElem v none hiv]
      exact List.all_eq_true.mp hnanc (v[i]) (List.getElem_mem hiv)
    rw [filterMap_eq_map_getD _ 0 cl hsome]
    rfl

/-- Example frame for the row-wise sum witness. -/
def rowSumExample : Table :=
  ⟨[("Column1", [some 1, some 2]), ("Column2", [some 10, some 20])]⟩

theorem row_sum_total_correct_witness :
    ∃ tot : List Val,
      addTotal rowSumExample ["Column1", "Column2"]
          = some ⟨rowSumExample.cols ++ [("Total", tot)]⟩
        ∧ tot.length = rowSumExample.nrows
        ∧ ∀ i, i < rowSumExample.nrows →
            tot.getD i none
              = some ((["Column1", "Column2"].map
                  (fun c => valInt rowSumExample c i)).sum) :=
  row_sum_total_correct rowSumExample ["Column1", "Column2"]
    (by decide) (by decide) (by decide) (by decide)

/-- Example frame that already carries a Total column. -/
def totalOverwriteExample : Table :=
  ⟨[("Column1", [some 1]), ("Column2", [some 2]), ("Total", [some 99])]⟩

/-- C5 counterexample: a frame that already has a Total column satisfies
the claim's hypothesis (every listed column exists), yet the job changes
that pre-existing column's values from 99 to 3, refuting the claim that
all pre-existing columns are unchanged. -/
theorem row_sum_overwrites_total :
    (["Column1", "Column2"]).all (fun c => totalOverwriteExample.hasCol c)
        = true
    ∧ (addTotal totalOverwriteExample ["Column1", "Column2"]).bind
        (fun u => u.getCol "Total") = some [some 3]
    ∧ totalOverwriteExample.getCol "Total" = some [some 99]
    ∧ ([some 3] : List Val) ≠ [some 99] := by
  exact ⟨by decide, by decide, by decide, by decide⟩

theorem setCol_getElem?_of_ne (t : Table) (c : String) (vals : List Val)
    (i : Nat) (p : String × List Val) (hp : t.cols[i]? = some p)
    (hne : p.1 ≠ c) : (setCol t c vals).cols[i]? = some p := by
  by_cases hc : t.hasCol c = true
  · have hcols : (setCol t c vals).cols
        = t.cols.map (fun q => if q.1 == c then (q.1, vals) else q) := by
      simp [setCol, hc]
    rw [hcols, List.getElem?_map, hp]
    simp [hne]
  · have hc' : t.hasCol c = false := by simpa using hc
    rw [setCol_cols_of_not_hasCol t c vals hc']
    have hi : i < t.cols.length := by
      by_contra hge
      rw [List.getElem?_eq_none (by omega)] at hp
      exact Option.noConfusion hp
    rw [List.getElem?_append, if_pos hi]
    exact hp

theorem mapOpt_eq_none {α β : Type} (g : α → Option β) :
    ∀ (l : List α) (x : α), x ∈ l → g x = none → mapOpt g l = none := by
  intro l
  induction l with
  | nil => intro x hx; simp at hx
  | cons a rest ih =>
    intro x hx hgx
    rcases List.mem_cons.mp hx with h | h
    · subst h
      simp [mapOpt, hgx]
    · cases hga : g a with
      | none => simp [mapOpt, hga]
      | some b => simp [mapOpt, hga, ih x h hgx]

theorem mapOpt_eq_some {α β : Type} (g : α → Option β) :
    ∀ l : List α, (∀ x ∈ l, ∃ y, g x = some y) →
      ∃ out, mapOpt g l = some out
        ∧ ∀ x ∈ l, ∀ y, g x = some y → y ∈ out := by
  intro l
  induction l with
  | nil => intro _; exact ⟨[], rfl, by simp⟩
  | cons a rest ih =>
    intro h
    obtain ⟨b, hb⟩ := h a (List.mem_cons_self a rest)
    obtain ⟨out, hout, hmem⟩ := ih (fun x hx => h x (List.mem_cons_of_mem a hx))
    refine ⟨b :: out, by simp [mapOpt, hb, hout], ?_⟩
    intro x hx y hy
    rcases List.mem_cons.mp hx with hxa | hxr
    · subst hxa
      rw [hb] at hy
      rw [← Option.some.inj hy]
      exact List.mem_cons_self b out
    · exact List.mem_cons_of_mem b (hmem x hxr y hy)

theorem replaceCols_eq_none (df2 : Table) :
    ∀ (l : List String) (df1 : Table) (c : String), c ∈ l →
      df2.getCol c = none → replaceCols df1 df2 l = none := by
  intro l
  induction l with
  | nil => intro df1 c hc; simp at hc
  | cons c0 rest ih =>
    intro df1 c hc hnone
    cases hg : df2.getCol c0 with
    | none => simp [replaceCols, hg]
    | some v =>
      rcases List.mem_cons.mp hc with h | h
      · subst h
        rw [hg] at hnone
        exact Option.noConfusion hnone
      · simp [replaceCols, hg]
        exact ih _ c h hnone

theorem replaceCols_success (df2 : Table) :
    ∀ (l : List String) (df1 : Table),
      (∀ c ∈ l, ∃ v, df2.getCol c = some v) →
      ∃ out, replaceCols df1 df2 l = some out
        ∧ out.nrows = df1.nrows
        ∧ (∀ c', c' ∉ l → out.getCol c' = df1.getCol c')
        ∧ (∀ c ∈ l, out.getCol c
            = some (align ((df2.getCol c).getD []) df1.nrows))
        ∧ (∀ (i : Nat) (p : String × List Val),
            df1.cols[i]? = some p → p.1 ∉ l →
            out.cols[i]? = some p) := by
  intro l
  induction l with
  | nil =>
    intro df1 _
    exact ⟨df1, rfl, rfl, fun _ _ => rfl, fun c hc => by simp at hc,
      fun i p hp _ => hp⟩
  | cons c0 rest ih =>
    intro df1 h
    obtain ⟨v0, hv0⟩ := h c0 (List.mem_cons_self c0 rest)
    obtain ⟨out, hout, hnrows, hframe, hvals, hpos⟩ :=
      ih (setCol df1 c0 (align v0 df1.nrows))
        (fun c hc => h c (List.mem_cons_of_mem c0 hc))
    have hnr : (setCol df1 c0 (align v0 df1.nrows)).nrows = df1.nrows :=
      setCol_nrows_align df1 c0 v0
    refine ⟨out, ?_, ?_, ?_, ?_, ?_⟩
    · simp [replaceCols, hv0, hout]
    · rw [hnrows, hnr]
    · intro c' hc'
      have hc'0 : c' ≠ c0 := fun e => hc' (e ▸ List.mem_cons_self c0 rest)
      have hc'r : c' ∉ rest := fun hr => hc' (List.mem_cons_of_mem c0 hr)
      rw [hframe c' hc'r, setCol_getCol_of_ne df1 c0 c' _ hc'0]
    · intro c hc
      by_cases hcr : c ∈ rest
      · rw [hvals c hcr, hnr]
      · have hcc0 : c = c0 := by
          rcases List.mem_cons.mp hc with h1 | h1
          · exact h1
          · exact absurd h1 hcr
        subst hcc0
        rw [hframe c hcr, setCol_getCol_self df1 c _, hv0]
        simp
    · intro i p hp hnotin
      have hp1c0 : p.1 ≠ c0 := fun e => hnotin (e ▸ List.mem_cons_self c0 rest)
      exact hpos i p
        (setCol_getElem?_of_ne df1 c0 (align v0 df1.nrows) i p hp hp1c0)
        (fun hr => hnotin (List.mem_cons_of_mem c0 hr))

/-- C10: when the replacer processes a filename pair without error, every
column of the first frame whose name is not in the replace list keeps its
values and its position in the persisted output, and the first frame's row
count is unchanged. -/
theorem replacer_frame :
    ∀ (cols : List String) (df1 df2 out : Table),
      replaceCols df1 df2 cols = some out →
      out.nrows = df1.nrows
        ∧ ∀ (i : Nat) (p : String × List Val),
            df1.cols[i]? = some p → p.1 ∉ cols →
            out.cols[i]? = some p := by
  intro cols df1 df2 out hrun
  have hsucc : ∀ c ∈ cols, ∃ v, df2.getCol c = some v := by
    intro c hc
    cases hg : df2.getCol c with
    | some v => exact ⟨v, rfl⟩
    | none =>
      rw [replaceCols_eq_none df2 cols df1 c hc hg] at hrun
      exact Option.noConfusion hrun
  obtain ⟨out', hout', hnrows, -, -, hpos⟩ :=
    replaceCols_success df2 cols df1 hsucc
  rw [hout'] at hrun
  rw [← Option.some.inj hrun]
  exact ⟨hnrows, hpos⟩

/-- Folder-1 frame of the replacer frame-effect witness. -/
def frameDf1 : Table := ⟨[("keep", [some 1, some 2]), ("c", [some 3, some 4])]⟩

/-- Folder-2 frame of the replacer frame-effect witness. -/
def frameDf2 : Table := ⟨[("c", [some 7, some 8])]⟩

/-- Output frame of the replacer frame-effect witness. -/
def frameOut : Table := ⟨[("keep", [some 1, some 2]), ("c", [some 7, some 8])]⟩

theorem replacer_frame_witness :
    frameOut.nrows = frameDf1.nrows
      ∧ frameOut.cols[0]? = some ("keep", [some 1, some 2]) :=
  ⟨(replacer_frame ["c"] frameDf1 frameDf2 frameOut (by decide)).1,
   (replacer_frame ["c"] frameDf1 frameDf2 frameOut (by decide)).2 0
     ("keep", [some 1, some 2]) (by decide) (by decide)⟩

/-- C3 amended: the replacer job aborts with an uncaught error whenever a
.csv filename of folder 1 is absent from folder 2 (FileNotFoundError) or a
listed column is missing from the corresponding folder-2 file (KeyError).
A listed column missing from the folder-1 file is created rather than an
error, and differing row counts do not fail: the folder-2 column is
truncated or NaN-padded to the folder-1 frame's row count.  When neither
failure condition holds, the job succeeds and each listed column of each
folder-1 file is overwritten with the folder-2 file's same-named column
values aligned by row position. -/
theorem replacer_failure_and_success :
    ∀ (cols : List String) (folder1 folder2 : List (String × Table)),
      (∀ p ∈ folder1, endsWithD p.1 ".csv" = true →
        folder2.lookup p.1 = none →
        runReplaceJob cols folder1 folder2 = none)
      ∧ (∀ p ∈ folder1, endsWithD p.1 ".csv" = true →
          ∀ df2, folder2.lookup p.1 = some df2 →
          ∀ c ∈ cols, df2.getCol c = none →
          runReplaceJob cols folder1 folder2 = none)
      ∧ ((∀ p ∈ folder1, endsWithD p.1 ".csv" = true →
            ∃ df2, folder2.lookup p.1 = some df2
              ∧ ∀ c ∈ cols, ∃ v, df2.getCol c = some v) →
          ∃ out, runReplaceJob cols folder1 folder2 = some out
            ∧ ∀ p ∈ folder1, endsWithD p.1 ".csv" = true →
                ∀ df2, folder2.lookup p.1 = some df2 →
                ∃ res, (p.1, res) ∈ out
                  ∧ ∀ c ∈ cols,
                      res.getCol c
                        = some (align ((df2.getCol c).getD []) p.2.nrows)) := by
  intro cols folder1 folder2
  refine ⟨?_, ?_, ?_⟩
  · intro p hp hcsv hlk
    exact mapOpt_eq_none
      (fun p => (processPair cols folder2 p.1 p.2).map (fun t => (p.1, t)))
      (folder1.filter (fun p => endsWithD p.1 ".csv")) p
      (List.mem_filter.mpr ⟨hp, hcsv⟩) (by simp [processPair, hlk])
  · intro p hp hcsv df2 hlk c hc hgc
    exact mapOpt_eq_none
      (fun p => (processPair cols folder2 p.1 p.2).map (fun t => (p.1, t)))
      (folder1.filter (fun p => endsWithD p.1 ".csv")) p
      (List.mem_filter.mpr ⟨hp, hcsv⟩)
      (by simp [processPair, hlk,
            replaceCols_eq_none df2 cols p.2 c hc hgc])
  · intro hok
    have hg : ∀ p ∈ folder1.filter (fun p => endsWithD p.1 ".csv"),
        ∃ y, (processPair cols folder2 p.1 p.2).map (fun t => (p.1, t))
          = some y := by
      intro p hp
      have hmem := List.mem_filter.mp hp
      obtain ⟨df2, hlk, hcols2⟩ := hok p hmem.1 hmem.2
      obtain ⟨r, hr, -, -, -, -⟩ := replaceCols_success df2 cols p.2 hcols2
      exact ⟨(p.1, r), by simp [processPair, hlk, hr]⟩
    obtain ⟨out, hout, hmem⟩ := mapOpt_eq_some _ _ hg
    refine ⟨out, hout, ?_⟩
    intro p hp hcsv df2 hlk
    have hpf : p ∈ folder1.filter (fun p => endsWithD p.1 ".csv") :=
      List.mem_filter.mpr ⟨hp, hcsv⟩
    obtain ⟨df2', hlk', hcols2⟩ := hok p hp hcsv
    rw [hlk] at hlk'
    cases Option.some.inj hlk'
    obtain ⟨r, hr, hnrows, hframe, hvals, hpos⟩ :=
      replaceCols_success df2 cols p.2 hcols2
    refine ⟨r, ?_, hvals⟩
    exact hmem p hpf (p.1, r) (by simp [processPair, hlk, hr])

/-- Folder 1 of the replacer counterexample: x.csv lacks column c and has
three rows. -/
def replFolder1 : List (String × Table) :=
  [("x.csv", ⟨[("a", [some 1, some 2, some 3])]⟩)]

/-- Folder 2 of the replacer counterexample: x.csv has column c and a
single row. -/
def replFolder2 : List (String × Table) :=
  [("x.csv", ⟨[("c", [some 9])]⟩)]

/-- C3 counterexample: the folder-1 file lacks listed column c and its row
count differs from the folder-2 file's, yet the job completes without
error — the column is created and NaN-padded — refuting the claim that a
listed column missing from either file, or differing row counts, abort the
batch. -/
theorem replacer_no_failure_counterexample :
    runReplaceJob ["c"] replFolder1 replFolder2
      = some [("x.csv", ⟨[("a", [some 1, some 2, some 3]),
                          ("c", [some 9, none, none])]⟩)]
    ∧ (⟨[("a", [some 1, some 2, some 3])]⟩ : Table).hasCol "c" = false
    ∧ (⟨[("a", [some 1, some 2, some 3])]⟩ : Table).nrows
        ≠ (⟨[("c", [some 9])]⟩ : Table).nrows := by
  exact ⟨by decide, by decide, by decide⟩

/-- A folder-1 listing whose only file has no counterpart in folder 2. -/
def replNoMatch : List (String × Table) :=
  [("z.csv", ⟨[("c", [some 1])]⟩)]

theorem replacer_failure_and_success_witness :
    runReplaceJob ["c"] replNoMatch [] = none :=
  (replacer_failure_and_success ["c"] replNoMatch []).1
    ("z.csv", ⟨[("c", [some 1])]⟩) (by decide) (by decide) (by decide)

theorem aggSheets_eq (cols : List String) (file : String) :
    ∀ sheets : List (String × Table),
      aggSheets cols file sheets =
        ((sheets.filter (fun s => cols.all (fun c => s.2.hasCol c))).map
            (fun s => mkAggRow cols s.1 s.2),
         (sheets.filter (fun s => ! cols.all (fun c => s.2.hasCol c))).map
            (fun s => Log.skip file s.1)) := by
  intro sheets
  induction sheets with
  | nil => rfl
  | cons s rest ih =>
    obtain ⟨nm, df⟩ := s
    by_cases hq : cols.all (fun c => df.hasCol c) = true
    · simp [aggSheets, hq, ih, List.filter_cons]
    · have hq' : cols.all (fun c => df.hasCol c) = false := by simpa using hq
      simp [aggSheets, hq', ih, List.filter_cons]

/-- C6: the aggregator's outputs are exactly one row per sheet having all
target columns — a sheet missing any target column is excluded entirely
(with a skip notice in the log, never a partial row) — and a file that
fails to open contributes a read-error notice and no output while the
remaining files are still processed. -/
theorem aggregator_skips_exactly :
    ∀ (cols : List String)
      (files : List (String × Option (List (String × Table)))),
      runSumJob cols files =
        ((files.filter
            (fun f => endsWithD f.1 ".xlsx" || endsWithD f.1 ".xls")).filterMap
            (fun f => f.2.map (fun sheets =>
              (f.1,
               (sheets.filter (fun s => cols.all (fun c => s.2.hasCol c))).map
                 (fun s => mkAggRow cols s.1 s.2)))),
         ((files.filter
            (fun f => endsWithD f.1 ".xlsx" || endsWithD f.1 ".xls")).flatMap
            (fun f =>
              match f.2 with
              | none => [Log.readError f.1]
              | some sheets =>
                (sheets.filter
                    (fun s => ! cols.all (fun c => s.2.hasCol c))).map
                  (fun s => Log.skip f.1 s.1) ++ [Log.wrote f.1]))
           ++ [Log.complete]) := by
  intro cols files
  induction files with
  | nil => rfl
  | cons f rest ih =>
    obtain ⟨fname, r⟩ := f
    by_cases hext : (endsWithD fname ".xlsx" || endsWithD fname ".xls") = true
    · cases r with
      | none =>
        simp [runSumJob, hext, ih, List.filter_cons]
      | some sheets =>
        simp [runSumJob, hext, ih, List.filter_cons, aggSheets_eq]
    · have hext' : (endsWithD fname ".xlsx" || endsWithD fname ".xls")
          = false := by
        simpa using hext
      simp [runSumJob, hext', ih, List.filter_cons]

end GenX
